import Mathlib

/-!
Verification of the AJAXSpider traversal engine (`crawl_ajax.py`).

The development shallowly embeds the spider's pure helpers
(`urldefrag`/`urlparse` scheme handling, `is_valid`, `extract_links`),
the sequential body of `AJAXSpider.process_url`, the constructor
`AJAXSpider.__init__`, and an interleaved small-step model of the
worker pool / `asyncio.Queue` run loop (`AJAXSpider.worker`,
`AJAXSpider.run`).  Network fetches are an oracle parameter
(`String → String → Option FetchResp`), HTML raw-reference extraction
(BeautifulSoup) and RFC-3986 resolution (`urljoin`) are function
parameters, as the spec treats them as external collaborators.
-/

namespace AJAXSpider

/-- Characters Python's `urllib.parse` accepts inside a URL scheme. -/
def schemeChar (c : Char) : Bool :=
  c.isAlpha || c.isDigit || c = '+' || c = '-' || c = '.'

/-- The scheme component as computed by Python's `urlparse`: the text before
the first colon, lower-cased, provided it starts with a letter and uses only
scheme characters; otherwise the empty string. -/
def urlparseScheme (s : String) : String :=
  let cs := s.toList
  let pre := cs.takeWhile (fun c => c ≠ ':')
  if pre.length < cs.length ∧ pre ≠ [] ∧
      (pre.headD ' ').isAlpha ∧ pre.all schemeChar then
    String.mk (pre.map Char.toLower)
  else ""

/-- Python's `urldefrag` restricted to its first component: everything
before the first unescaped hash sign. -/
def urldefrag (s : String) : String :=
  String.mk (s.toList.takeWhile (fun c => c ≠ '#'))

/-- `AJAXSpider.is_valid`: accept exactly the URLs whose parsed scheme is
http or https (`crawl_ajax.py` lines 101-112). -/
def is_valid (url : String) : Bool :=
  urlparseScheme url = "http" || urlparseScheme url = "https"

/-- Removes duplicates keeping the first occurrence, tracking already seen
elements; models the Python `set` accumulation in `extract_links`. -/
def dedupAux : List String → List String → List String
  | [], _ => []
  | a :: rest, seen =>
      if a ∈ seen then dedupAux rest seen else a :: dedupAux rest (a :: seen)

/-- Duplicate removal keeping first occurrences. -/
def dedupFirst (l : List String) : List String := dedupAux l []

/-- Substring test on character lists (Python's `in` on strings). -/
def containsSub (needle : List Char) : List Char → Bool
  | [] => needle.isEmpty
  | c :: cs => needle.isPrefixOf (c :: cs) || containsSub needle cs

/-- `headers.get(key, '')` on the modelled header association list. -/
def headerGet (hs : List (String × String)) (k : String) : String :=
  match hs.find? (fun p => p.1 = k) with
  | some p => p.2
  | none => ""

/-- A successful fetch response: status, body text, headers.  A failed
fetch is `none` (the code's `(None, None, None)` return). -/
structure FetchResp where
  status : Nat
  content : String
  headers : List (String × String)
deriving DecidableEq

/-- The network as a deterministic oracle, as assumed by the
reproducibility claims: `fetch(url, method)` either succeeds with a
response or fails. -/
abbrev Oracle := String → String → Option FetchResp

/-- One recorded entry of `self.results` (`crawl_ajax.py` lines 130-135). -/
structure Outcome where
  url : String
  method : String
  status : Nat
  headers : List (String × String)
deriving DecidableEq

/-- Static run configuration plus the external collaborators:
the seed URL, the depth bound, the fetch oracle, `urljoin`, and the
BeautifulSoup raw-reference extraction (`href`/`src` values in document
order). -/
structure Config where
  seed : String
  maxDepth : Nat
  oracle : Oracle
  join : String → String → String
  refs : String → List String

/-- `AJAXSpider.extract_links` (`crawl_ajax.py` lines 78-99): each present
raw reference is resolved against the base, defragmented, kept when
`is_valid`, and accumulated into a set. -/
def extract_links (cfg : Config) (html : String) (base : String) : List String :=
  dedupFirst
    (((cfg.refs html).filter (fun l => l ≠ "")).map
        (fun l => urldefrag (cfg.join base l)) |>.filter is_valid)

/-- The six probed methods, in the fixed order of `process_url` line 126. -/
def methods : List String := ["GET", "POST", "PUT", "DELETE", "HEAD", "OPTIONS"]

/-- The outcome recorded for a probe: present exactly when the fetch
succeeded (`process_url` lines 128-135). -/
def probeOutcome (u m : String) (r? : Option FetchResp) : Option Outcome :=
  r?.map (fun r => ⟨u, m, r.status, r.headers⟩)

/-- The links a completed probe feeds back to the queue
(`process_url` lines 136-139): only a successful GET with an html
content type and non-empty body yields links. -/
def probeLinks (cfg : Config) (u m : String) (r? : Option FetchResp) : List String :=
  match r? with
  | none => []
  | some r =>
      if m = "GET" ∧ containsSub "text/html".toList (headerGet r.headers "Content-Type").toList
          ∧ r.content ≠ "" then
        extract_links cfg r.content u
      else []

/-- The links page `u` contributes when processed: its GET probe's links. -/
def pageLinks (cfg : Config) (u : String) : List String :=
  probeLinks cfg u "GET" (cfg.oracle u "GET")

/-! ## Sequential embedding of `AJAXSpider.process_url`

`process_url` mutates three pieces of shared state: `self.visited`,
`self.results`, and `self.queue` (it only appends to the queue). -/

/-- The shared state `process_url` reads and writes. -/
structure SState where
  visited : List String
  results : List Outcome
  queue : List (String × Nat)
deriving DecidableEq

/-- The body of one iteration of the method loop in `process_url`
(lines 127-140): fetch, append the outcome when the status is present,
and enqueue extracted links after a suitable GET. -/
def probeStep (cfg : Config) (url : String) (depth : Nat) (s : SState)
    (m : String) : SState :=
  match cfg.oracle url m with
  | none => s
  | some r =>
      let s1 : SState :=
        { s with results := s.results ++ [⟨url, m, r.status, r.headers⟩] }
      { s1 with queue := s1.queue ++
          (probeLinks cfg url m (some r)).map (fun l => (l, depth + 1)) }

/-- `AJAXSpider.process_url` (lines 114-140) as a state transformer:
return unchanged when the URL is visited or the depth bound is exceeded,
otherwise mark visited and run the six probes. -/
def process_url (cfg : Config) (s : SState) (url : String) (depth : Nat) : SState :=
  if url ∈ s.visited ∨ depth > cfg.maxDepth then s
  else methods.foldl (probeStep cfg url depth)
    { s with visited := s.visited ++ [url] }

/-! ## Embedding of `AJAXSpider.__init__`

The constructor (lines 14-36) stores its arguments unconditionally and
seeds the queue with `(start_url, 0)`; it has no failure path. -/

/-- The fields `__init__` sets (the aiohttp session and logger carry no
traversal state and are omitted). -/
structure Spider where
  start_url : String
  max_depth : Nat
  concurrency : Int
  output_file : String
  log_file : String
  visited : List String
  results : List Outcome
  queue : List (String × Nat)
deriving DecidableEq

/-- `AJAXSpider.__init__`: a total constructor; every argument is accepted
and the seed is enqueued at depth 0 immediately. -/
def init (start_url : String) (max_depth : Nat) (concurrency : Int)
    (output_file : String := "output.json") (log_file : String := "spider.log") :
    Spider :=
  { start_url := start_url
    max_depth := max_depth
    concurrency := concurrency
    output_file := output_file
    log_file := log_file
    visited := []
    results := []
    queue := [(start_url, 0)] }

/-- Modelled from the spec (section 7, "Configuration error"): the
validating constructor the spec describes, rejecting a seed whose scheme is
not http(s) and a non-positive concurrency before any traversal state is
built.  Used only to compare the spec's words with the code's `init`. -/
def initSpecValidating (start_url : String) (max_depth : Nat)
    (concurrency : Int) : Except String Spider :=
  if ¬ is_valid start_url then Except.error "invalid seed scheme"
  else if concurrency ≤ 0 then Except.error "non-positive concurrency"
  else Except.ok (init start_url max_depth concurrency)

/-! ## Interleaved model of the worker pool (`worker`, `run`)

Under asyncio, code between two genuinely suspending awaits runs
atomically.  In `crawl_ajax.py` the only suspending awaits are a fetch
(`session.request`) and `queue.get()` on an empty queue: `queue.put` on an
unbounded queue and `queue.get` on a non-empty queue return synchronously.
A worker therefore alternates between two suspended shapes — waiting on an
empty queue, or waiting on an outstanding fetch — and the scheduler's only
freedom is which suspended worker resumes next.  The model makes each
resume one atomic step and instruments the state with an event trace.
`unfinished` is `asyncio.Queue._unfinished_tasks`: incremented by every
`put`, decremented by every `task_done`; `queue.join()` in `run` returns
exactly when it reaches 0. -/

/-- A worker's suspended shape: blocked in `queue.get()`, or holding item
`(url, depth)` with the fetch for method index `idx` outstanding. -/
inductive WPhase
  | waiting
  | fetching (url : String) (depth : Nat) (idx : Nat)
deriving DecidableEq

/-- Trace events: a link pushed onto the queue, an item accepted for
processing (the `visited.add` of line 125), a probe attempted, and a
popped item discarded by the guard of line 123. -/
inductive Event
  | push (url : String) (depth : Nat)
  | start (url : String) (depth : Nat)
  | probe (url : String) (method : String)
  | skip (url : String) (depth : Nat)
deriving DecidableEq

/-- The full run state: queue contents, visited set, result log, the pool
of workers, the queue's unfinished-task counter, and the event trace. -/
structure RState where
  queue : List (String × Nat)
  visited : List String
  results : List Outcome
  workers : List WPhase
  unfinished : Nat
  trace : List Event
deriving DecidableEq

/-- The state right after `__init__` and worker creation in `run`:
the seed queued at depth 0 (so `unfinished = 1`) and `conc` idle workers. -/
def initR (cfg : Config) (conc : Nat) : RState :=
  { queue := [(cfg.seed, 0)]
    visited := []
    results := []
    workers := List.replicate conc WPhase.waiting
    unfinished := 1
    trace := [] }

/-- The outcome of the synchronous pop loop: the worker's next phase and
the updated queue, visited set, unfinished counter and trace. -/
structure AcqRes where
  ph : WPhase
  queue : List (String × Nat)
  visited : List String
  unfinished : Nat
  trace : List Event

/-- The synchronous pop loop a worker runs between suspensions: pop items
and discard them through the guard of line 123 (calling `task_done`,
line 150) until one passes — which is marked visited (line 125) and held
for its first fetch — or the queue empties. -/
def acquire (cfg : Config) :
    List (String × Nat) → List String → Nat → List Event → AcqRes
  | [], v, u, tr => ⟨WPhase.waiting, [], v, u, tr⟩
  | (a, d) :: rest, v, u, tr =>
      if a ∈ v ∨ d > cfg.maxDepth then
        acquire cfg rest v (u - 1) (tr ++ [Event.skip a d])
      else
        ⟨WPhase.fetching a d 0, rest, v ++ [a], u, tr ++ [Event.start a d]⟩

/-- Runs the pop loop for worker `w` and installs the resulting phase. -/
def runAcquire (cfg : Config) (s : RState) (w : Nat) : RState :=
  let r := acquire cfg s.queue s.visited s.unfinished s.trace
  { s with workers := s.workers.set w r.ph
           queue := r.queue
           visited := r.visited
           unfinished := r.unfinished
           trace := r.trace }

/-- Scheduler actions: wake a worker blocked in `queue.get()` (possible
once the queue is non-empty), or complete worker `w`'s outstanding fetch. -/
inductive Act
  | wake (w : Nat)
  | complete (w : Nat)
deriving DecidableEq

/-- The atomic block run when worker `w`'s fetch for `methods[i]` of item
`(u, d)` completes: record the probe; when it succeeded, append the
outcome (lines 129-135) and push any extracted links at `d+1`
(lines 136-140); then either issue the next method's fetch or, after
OPTIONS, call `task_done` (line 150) and re-enter the pop loop. -/
def completeFetch (cfg : Config) (s : RState) (w : Nat)
    (u : String) (d : Nat) (i : Nat) (m : String) : RState :=
  let r? := cfg.oracle u m
  let ls := probeLinks cfg u m r?
  let s1 : RState :=
    { s with
        trace := (s.trace ++ [Event.probe u m]) ++ ls.map (fun l => Event.push l (d + 1))
        results := s.results ++ (probeOutcome u m r?).toList
        queue := s.queue ++ ls.map (fun l => (l, d + 1))
        unfinished := s.unfinished + ls.length }
  if i + 1 < methods.length then
    { s1 with workers := s1.workers.set w (WPhase.fetching u d (i + 1)) }
  else
    runAcquire cfg { s1 with unfinished := s1.unfinished - 1 } w

/-- One scheduler step.  Inapplicable actions leave the state unchanged,
so every action list denotes a (possibly stuttering) execution. -/
def step (cfg : Config) (s : RState) : Act → RState
  | Act.wake w =>
      match s.workers.get? w with
      | some WPhase.waiting =>
          if s.queue = [] then s else runAcquire cfg s w
      | _ => s
  | Act.complete w =>
      match s.workers.get? w with
      | some (WPhase.fetching u d i) =>
          match methods.get? i with
          | some m => completeFetch cfg s w u d i m
          | none => s
      | _ => s

/-- A whole execution: fold the schedule over the initial state. -/
def exec (cfg : Config) (conc : Nat) (acts : List Act) : RState :=
  acts.foldl (step cfg) (initR cfg conc)

/-! ### Trace and state observations -/

/-- Number of workers currently holding an item (popped, not yet
`task_done`). -/
def inflight : List WPhase → Nat
  | [] => 0
  | WPhase.fetching _ _ _ :: ws => 1 + inflight ws
  | WPhase.waiting :: ws => inflight ws

/-- How many times address `a` was accepted for processing. -/
def startCount (tr : List Event) (a : String) : Nat :=
  (tr.filter (fun e => match e with
    | Event.start b _ => b = a
    | _ => false)).length

/-- The pushes recorded in the trace, as (address, depth) pairs. -/
def pushList (tr : List Event) : List (String × Nat) :=
  tr.filterMap (fun e => match e with
    | Event.push a d => some (a, d)
    | _ => none)

/-- The probes recorded in the trace, as (address, method) pairs. -/
def probeList (tr : List Event) : List (String × String) :=
  tr.filterMap (fun e => match e with
    | Event.probe a m => some (a, m)
    | _ => none)

/-- The methods probed so far on address `a`, in order. -/
def probesOf (tr : List Event) (a : String) : List String :=
  tr.filterMap (fun e => match e with
    | Event.probe b m => if b = a then some m else none
    | _ => none)

/-- The method index of the worker currently holding address `a`, if any. -/
def fetchIdx (ws : List WPhase) (a : String) : Option Nat :=
  ws.findSome? (fun w => match w with
    | WPhase.fetching b _ i => if b = a then some i else none
    | _ => none)

/-- The (address, method) pairs recorded in the result log. -/
def pairsOf (s : RState) : List (String × String) :=
  s.results.map (fun o => (o.url, o.method))

/-- The outcomes recorded for one address. -/
def resultsFor (s : RState) (a : String) : List Outcome :=
  s.results.filter (fun o => o.url = a)

/-- Addresses reachable from the seed in at most `d` hops along the
discovered link graph: links are only contributed by pages in `v`
(the pages actually fetched). -/
def dreachSet (cfg : Config) (v : List String) : Nat → List String
  | 0 => [cfg.seed]
  | d + 1 =>
      let prev := dreachSet cfg v d
      dedupFirst (prev ++ (prev.filter (fun u => u ∈ v)).flatMap (pageLinks cfg))

/-! ## Helper lemmas -/

theorem mem_dedupAux (a : String) :
    ∀ (l seen : List String), a ∈ dedupAux l seen ↔ a ∈ l ∧ a ∉ seen := by
  intro l
  induction l with
  | nil => intro seen; simp [dedupAux]
  | cons b rest ih =>
      intro seen
      by_cases hb : b ∈ seen
      · rw [dedupAux, if_pos hb, ih]
        constructor
        · rintro ⟨h1, h2⟩
          exact ⟨List.mem_cons_of_mem _ h1, h2⟩
        · rintro ⟨h1, h2⟩
          rcases List.mem_cons.mp h1 with rfl | h1
          · exact absurd hb h2
          · exact ⟨h1, h2⟩
      · rw [dedupAux, if_neg hb]
        constructor
        · intro h
          rcases List.mem_cons.mp h with rfl | h'
          · exact ⟨List.mem_cons_self _ _, hb⟩
          · obtain ⟨h1, h2⟩ := (ih _).mp h'
            exact ⟨List.mem_cons_of_mem _ h1,
              fun hs => h2 (List.mem_cons_of_mem _ hs)⟩
        · rintro ⟨h1, h2⟩
          rcases List.mem_cons.mp h1 with rfl | h1'
          · exact List.mem_cons_self _ _
          · by_cases hab : a = b
            · subst hab; exact List.mem_cons_self _ _
            · refine List.mem_cons_of_mem _ ((ih _).mpr ⟨h1', ?_⟩)
              intro hs
              rcases List.mem_cons.mp hs with h3 | h3
              · exact hab h3
              · exact h2 h3

theorem mem_dedupFirst (a : String) (l : List String) :
    a ∈ dedupFirst l ↔ a ∈ l := by
  simp [dedupFirst, mem_dedupAux]

theorem dreachSet_zero (cfg : Config) (v : List String) :
    dreachSet cfg v 0 = [cfg.seed] := rfl

theorem mem_dreachSet_succ (cfg : Config) (v : List String) (d : Nat) (a : String) :
    a ∈ dreachSet cfg v (d + 1) ↔
      a ∈ dreachSet cfg v d ∨
        ∃ u ∈ dreachSet cfg v d, u ∈ v ∧ a ∈ pageLinks cfg u := by
  simp only [dreachSet, mem_dedupFirst, List.mem_append, List.mem_flatMap,
    List.mem_filter, decide_eq_true_eq]
  constructor
  · rintro (h | ⟨u, ⟨hu, huv⟩, ha⟩)
    · exact Or.inl h
    · exact Or.inr ⟨u, hu, huv, ha⟩
  · rintro (h | ⟨u, hu, huv, ha⟩)
    · exact Or.inl h
    · exact Or.inr ⟨u, ⟨hu, huv⟩, ha⟩

theorem dreachSet_succ_self (cfg : Config) (v : List String) (d : Nat) :
    dreachSet cfg v d ⊆ dreachSet cfg v (d + 1) := by
  intro a ha
  exact (mem_dreachSet_succ cfg v d a).mpr (Or.inl ha)

theorem dreachSet_mono_depth (cfg : Config) (v : List String) {d d' : Nat}
    (h : d ≤ d') : dreachSet cfg v d ⊆ dreachSet cfg v d' := by
  induction d' with
  | zero => cases Nat.le_zero.mp h; exact fun a ha => ha
  | succ n ih =>
      rcases Nat.lt_or_ge d (n + 1) with hlt | hge
      · exact fun a ha => dreachSet_succ_self cfg v n (ih (Nat.lt_succ_iff.mp hlt) ha)
      · cases Nat.le_antisymm h hge
        exact fun a ha => ha

theorem dreachSet_mono_visited (cfg : Config) {v v' : List String}
    (h : v ⊆ v') (d : Nat) : dreachSet cfg v d ⊆ dreachSet cfg v' d := by
  induction d with
  | zero => exact fun a ha => ha
  | succ n ih =>
      intro a ha
      rcases (mem_dreachSet_succ cfg v n a).mp ha with h1 | ⟨u, hu, huv, hl⟩
      · exact dreachSet_succ_self cfg v' n (ih h1)
      · exact (mem_dreachSet_succ cfg v' n a).mpr (Or.inr ⟨u, ih hu, h huv, hl⟩)

theorem mem_dreachSet_step (cfg : Config) (v : List String) {d : Nat}
    {u a : String} (hu : u ∈ dreachSet cfg v d) (huv : u ∈ v)
    (ha : a ∈ pageLinks cfg u) : a ∈ dreachSet cfg v (d + 1) :=
  (mem_dreachSet_succ cfg v d a).mpr (Or.inr ⟨u, hu, huv, ha⟩)

/-! ### Trace bookkeeping lemmas -/

theorem startCount_append (tr tr' : List Event) (a : String) :
    startCount (tr ++ tr') a = startCount tr a + startCount tr' a := by
  simp [startCount, List.filter_append]

theorem pushList_append (tr tr' : List Event) :
    pushList (tr ++ tr') = pushList tr ++ pushList tr' := by
  simp [pushList]

theorem probeList_append (tr tr' : List Event) :
    probeList (tr ++ tr') = probeList tr ++ probeList tr' := by
  simp [probeList]

theorem probesOf_append (tr tr' : List Event) (a : String) :
    probesOf (tr ++ tr') a = probesOf tr a ++ probesOf tr' a := by
  simp [probesOf]

theorem startCount_skips (a b : String) (d : Nat) :
    startCount [Event.skip b d] a = 0 := rfl

theorem mem_pushList (tr : List Event) (a : String) (d : Nat) :
    (a, d) ∈ pushList tr ↔ Event.push a d ∈ tr := by
  induction tr with
  | nil => simp [pushList]
  | cons e rest ih =>
      cases e <;> simp [pushList, List.filterMap_cons] at ih ⊢ <;>
        simp [ih, Prod.ext_iff] <;> tauto

theorem mem_probeList (tr : List Event) (a m : String) :
    (a, m) ∈ probeList tr ↔ Event.probe a m ∈ tr := by
  induction tr with
  | nil => simp [probeList]
  | cons e rest ih =>
      cases e <;> simp [probeList, List.filterMap_cons] at ih ⊢ <;>
        simp [ih, Prod.ext_iff] <;> tauto

theorem probesOf_ne_nil_of_mem (tr : List Event) (a m : String)
    (h : Event.probe a m ∈ tr) : probesOf tr a ≠ [] := by
  induction tr with
  | nil => cases h
  | cons e rest ih =>
      rcases List.mem_cons.mp h with rfl | h'
      · simp [probesOf, List.filterMap_cons]
      · intro hcontra
        cases e with
        | probe b m' =>
            by_cases hba : b = a
            · subst hba; simp [probesOf, List.filterMap_cons] at hcontra
            · simp only [probesOf, List.filterMap_cons, if_neg hba] at hcontra
              exact ih h' hcontra
        | push b d => exact ih h' (by simpa [probesOf, List.filterMap_cons] using hcontra)
        | start b d => exact ih h' (by simpa [probesOf, List.filterMap_cons] using hcontra)
        | skip b d => exact ih h' (by simpa [probesOf, List.filterMap_cons] using hcontra)

theorem probesOf_nil_of_probeList_nil (tr : List Event) (a : String)
    (h : probeList tr = []) : probesOf tr a = [] := by
  induction tr with
  | nil => rfl
  | cons e rest ih =>
      cases e with
      | probe b m => simp [probeList, List.filterMap_cons] at h
      | push b d =>
          simp only [probeList, List.filterMap_cons] at h
          exact (by simpa [probesOf, List.filterMap_cons] using ih h)
      | start b d =>
          simp only [probeList, List.filterMap_cons] at h
          exact (by simpa [probesOf, List.filterMap_cons] using ih h)
      | skip b d =>
          simp only [probeList, List.filterMap_cons] at h
          exact (by simpa [probesOf, List.filterMap_cons] using ih h)

/-! ### Worker-pool counting lemmas -/

/-- 1 for a worker holding an item, 0 for an idle worker. -/
def flagW : WPhase → Nat
  | WPhase.waiting => 0
  | WPhase.fetching _ _ _ => 1

theorem inflight_cons (w : WPhase) (ws : List WPhase) :
    inflight (w :: ws) = flagW w + inflight ws := by
  cases w <;> simp [inflight, flagW]

theorem inflight_set (ws : List WPhase) :
    ∀ (i : Nat) (ph w0 : WPhase), ws.get? i = some w0 →
      inflight (ws.set i ph) + flagW w0 = inflight ws + flagW ph := by
  induction ws with
  | nil => intro i ph w0 h; cases h
  | cons w rest ih =>
      intro i ph w0 h
      cases i with
      | zero =>
          cases h
          simp only [List.set]
          rw [inflight_cons, inflight_cons]
          omega
      | succ n =>
          simp only [List.get?] at h
          simp only [List.set]
          rw [inflight_cons, inflight_cons]
          have := ih n ph w0 h
          omega

theorem inflight_eq_zero_iff (ws : List WPhase) :
    inflight ws = 0 ↔ ∀ w ∈ ws, w = WPhase.waiting := by
  induction ws with
  | nil => simp [inflight]
  | cons w rest ih =>
      rw [inflight_cons]
      cases w <;> simp [flagW, ih]

theorem list_set_same {α : Type _} (l : List α) (i : Nat) (a : α)
    (h : l.get? i = some a) : l.set i a = l := by
  apply List.ext_get?
  intro j
  rcases eq_or_ne i j with rfl | hne
  · have hi : i < l.length := by
      by_contra hlt
      rw [List.get?_eq_none.mpr (Nat.le_of_not_lt hlt)] at h
      cases h
    rw [List.get?_set_eq_of_lt a hi, h]
  · rw [List.get?_set_ne a l hne]

/-! ## The run invariant

All facts the claims need, preserved by every scheduler step. -/

/-- Invariant of reachable run states. -/
structure Inv (cfg : Config) (s : RState) : Prop where
  /-- `asyncio.Queue` counting: the unfinished-task counter equals the
  queued items plus the items currently held by workers. -/
  count : s.unfinished = s.queue.length + inflight s.workers
  /-- Every queued item is reachable from the seed within its depth along
  links of already-fetched pages. -/
  queue_reach : ∀ a d, (a, d) ∈ s.queue → a ∈ dreachSet cfg s.visited d
  /-- A worker holding an item has a valid method index, an in-bound
  depth, and a visited, reachable address. -/
  fetch_wf : ∀ i u d k, s.workers.get? i = some (WPhase.fetching u d k) →
      k < methods.length ∧ d ≤ cfg.maxDepth ∧ u ∈ s.visited ∧
        u ∈ dreachSet cfg s.visited d
  /-- No two workers hold the same address. -/
  fetch_uniq : ∀ i j u d k d' k',
      s.workers.get? i = some (WPhase.fetching u d k) →
      s.workers.get? j = some (WPhase.fetching u d' k') → i = j
  /-- The visited set is exactly the set of started addresses. -/
  visited_start : ∀ a, a ∈ s.visited ↔ 1 ≤ startCount s.trace a
  /-- No address is started twice. -/
  start_once : ∀ a, startCount s.trace a ≤ 1
  /-- Started items respect the depth bound and reachability. -/
  start_wf : ∀ a d, Event.start a d ∈ s.trace →
      d ≤ cfg.maxDepth ∧ a ∈ dreachSet cfg s.visited d
  /-- Pushed items are reachable at their depth. -/
  push_wf : ∀ a d, Event.push a d ∈ s.trace → a ∈ dreachSet cfg s.visited d
  /-- A pushed in-bound item is visited or still queued. -/
  push_resolved : ∀ a d, Event.push a d ∈ s.trace → d ≤ cfg.maxDepth →
      a ∈ s.visited ∨ (a, d) ∈ s.queue
  /-- Unvisited addresses have not been probed. -/
  probes_not_started : ∀ a, a ∉ s.visited → probesOf s.trace a = []
  /-- A held address has been probed with exactly the first `k` methods. -/
  probes_active : ∀ i u d k, s.workers.get? i = some (WPhase.fetching u d k) →
      probesOf s.trace u = methods.take k
  /-- A visited address no worker holds has been probed with all methods. -/
  probes_done : ∀ a, a ∈ s.visited →
      (∀ i u d k, s.workers.get? i = some (WPhase.fetching u d k) → u ≠ a) →
      probesOf s.trace a = methods
  /-- The result log is determined by the probe trace: one entry per
  successful probe, none for failures. -/
  results_probes : s.results = (probeList s.trace).filterMap
      (fun p => probeOutcome p.1 p.2 (cfg.oracle p.1 p.2))

/-- What the pop loop guarantees, relative to its inputs. -/
structure AcqSpec (cfg : Config) (q : List (String × Nat)) (v : List String)
    (u : Nat) (tr : List Event) (r : AcqRes) : Prop where
  count : ∀ base, u = q.length + base → r.unfinished = r.queue.length + base + flagW r.ph
  queue_sub : ∀ p, p ∈ r.queue → p ∈ q
  visited_mono : v ⊆ r.visited
  trace_ext : ∃ evs, r.trace = tr ++ evs ∧ pushList evs = [] ∧ probeList evs = [] ∧
      (∀ b, startCount evs b = match r.ph with
        | WPhase.waiting => 0
        | WPhase.fetching a _ _ => if b = a then 1 else 0) ∧
      (∀ b d', Event.start b d' ∈ evs → r.ph = WPhase.fetching b d' 0)
  wait_case : r.ph = WPhase.waiting → r.queue = [] ∧ r.visited = v
  fetch_case : ∀ a d k, r.ph = WPhase.fetching a d k →
      k = 0 ∧ a ∉ v ∧ r.visited = v ++ [a] ∧ (a, d) ∈ q ∧ d ≤ cfg.maxDepth ∧
        Event.start a d ∈ r.trace
  resolved : ∀ a d, (a, d) ∈ q → d ≤ cfg.maxDepth → a ∈ r.visited ∨ (a, d) ∈ r.queue

theorem acquire_spec (cfg : Config) :
    ∀ (q : List (String × Nat)) (v : List String) (u : Nat) (tr : List Event),
      AcqSpec cfg q v u tr (acquire cfg q v u tr) := by
  intro q
  induction q with
  | nil =>
      intro v u tr
      refine ⟨?_, ?_, ?_, ?_, ?_, ?_, ?_⟩
      · intro base hb; simpa [acquire, flagW] using hb
      · intro p hp; simp [acquire] at hp
      · intro x hx; simpa [acquire] using hx
      · exact ⟨[], by simp [acquire], rfl, rfl, fun b => by simp [acquire, startCount],
          fun b d' h => absurd h (List.not_mem_nil _)⟩
      · intro _; exact ⟨rfl, rfl⟩
      · intro a d k h; simp [acquire] at h
      · intro a d h; cases h
  | cons p rest ih =>
      obtain ⟨a, d⟩ := p
      intro v u tr
      by_cases hskip : a ∈ v ∨ d > cfg.maxDepth
      · -- the guard of line 123 discards the item
        have hacq : acquire cfg ((a, d) :: rest) v u tr =
            acquire cfg rest v (u - 1) (tr ++ [Event.skip a d]) := by
          rw [acquire, if_pos hskip]
        obtain ⟨c1, c2, c3, c4, c5, c6, c7⟩ := ih v (u - 1) (tr ++ [Event.skip a d])
        rw [hacq]
        refine ⟨?_, ?_, c3, ?_, c5, ?_, ?_⟩
        · intro base hb
          apply c1
          simp only [List.length_cons] at hb
          omega
        · intro p hp; exact List.mem_cons_of_mem _ (c2 p hp)
        · obtain ⟨evs, he, hpu, hpr, hst, hse⟩ := c4
          refine ⟨Event.skip a d :: evs, by simpa using he, by simpa [pushList] using hpu,
            by simpa [probeList] using hpr, fun b => ?_, fun b d' hmem => ?_⟩
          · have := hst b
            simpa [startCount] using this
          · rcases List.mem_cons.mp hmem with heq | hmem'
            · cases heq
            · exact hse b d' hmem'
        · intro a' d' k h
          obtain ⟨h1, h2, h3, h4, h5, h6⟩ := c6 a' d' k h
          exact ⟨h1, h2, h3, List.mem_cons_of_mem _ h4, h5, h6⟩
        · intro b d' hb hd'
          rcases List.mem_cons.mp hb with heq | hmem
          · -- the skipped item: the guard held, so within bound it was visited
            injection heq with h1 h2
            subst h1; subst h2
            rcases hskip with hv | hd
            · exact Or.inl (c3 hv)
            · exact absurd hd' (by omega)
          · exact c7 b d' hmem hd'
      · -- the item is accepted: mark visited, hold for fetching
        have hacq : acquire cfg ((a, d) :: rest) v u tr =
            ⟨WPhase.fetching a d 0, rest, v ++ [a], u, tr ++ [Event.start a d]⟩ := by
          rw [acquire, if_neg hskip]
        push_neg at hskip
        obtain ⟨hav, had⟩ := hskip
        rw [hacq]
        refine ⟨?_, ?_, ?_, ?_, ?_, ?_, ?_⟩
        · intro base hb
          simp only [List.length_cons] at hb
          simp only [flagW]
          omega
        · intro p hp; exact List.mem_cons_of_mem _ hp
        · intro x hx; exact List.mem_append_left _ hx
        · refine ⟨[Event.start a d], rfl, rfl, rfl, fun b => ?_, fun b d' hmem => ?_⟩
          · by_cases hba : b = a
            · subst hba; simp [startCount]
            · simp [startCount, hba, Ne.symm hba]
          · rcases List.mem_cons.mp hmem with heq | hmem'
            · injection heq with h1 h2
              subst h1; subst h2; rfl
            · cases hmem'
        · intro h; cases h
        · intro a' d' k h
          injection h with h1 h2 h3
          subst h1; subst h2; subst h3
          exact ⟨rfl, hav, rfl, List.mem_cons_self _ _, had,
            List.mem_append_right _ (List.mem_cons_self _ _)⟩
        · intro b d' hb hd'
          rcases List.mem_cons.mp hb with heq | hmem
          · injection heq with h1 h2
            subst h1; subst h2
            exact Or.inl (List.mem_append_right _ (List.mem_cons_self _ _))
          · exact Or.inr hmem

/-! ### Lemmas about the events a completed probe appends -/

theorem startCount_map_push (ls : List String) (δ : Nat) (b : String) :
    startCount (ls.map (fun l => Event.push l δ)) b = 0 := by
  induction ls with
  | nil => rfl
  | cons l rest ih => simpa [startCount, List.filter_cons] using ih

theorem pushList_map_push (ls : List String) (δ : Nat) :
    pushList (ls.map (fun l => Event.push l δ)) = ls.map (fun l => (l, δ)) := by
  induction ls with
  | nil => rfl
  | cons l rest ih => simp [pushList, List.filterMap_cons] at ih ⊢; exact ih

theorem probeList_map_push (ls : List String) (δ : Nat) :
    probeList (ls.map (fun l => Event.push l δ)) = [] := by
  induction ls with
  | nil => rfl
  | cons l rest ih => simpa [probeList, List.filterMap_cons] using ih

theorem probesOf_map_push (ls : List String) (δ : Nat) (b : String) :
    probesOf (ls.map (fun l => Event.push l δ)) b = [] := by
  induction ls with
  | nil => rfl
  | cons l rest ih => simpa [probesOf, List.filterMap_cons] using ih

theorem start_not_mem_map_push (ls : List String) (δ : Nat) (b : String) (δ' : Nat) :
    Event.start b δ' ∉ ls.map (fun l => Event.push l δ) := by
  intro h
  obtain ⟨l, -, hl⟩ := List.mem_map.mp h
  cases hl

/-- Whatever links a probe of `u` with any method yields are links of the
page `u` (only the GET probe yields links). -/
theorem probeLinks_subset_pageLinks (cfg : Config) (u m : String) :
    ∀ l ∈ probeLinks cfg u m (cfg.oracle u m), l ∈ pageLinks cfg u := by
  intro l hl
  cases horc : cfg.oracle u m with
  | none => rw [horc] at hl; simp [probeLinks] at hl
  | some r =>
      rw [horc] at hl
      simp only [probeLinks] at hl
      by_cases hcond : m = "GET" ∧
          containsSub "text/html".toList (headerGet r.headers "Content-Type").toList
          ∧ r.content ≠ ""
      · rw [if_pos hcond] at hl
        obtain ⟨hm, hct, hcnt⟩ := hcond
        subst hm
        unfold pageLinks
        rw [horc]
        simp only [probeLinks]
        rw [if_pos ⟨trivial, hct, hcnt⟩]
        exact hl
      · rw [if_neg hcond] at hl
        cases hl

/-- Running the pop loop for an idle worker preserves the invariant. -/
theorem runAcquire_inv (cfg : Config) (t : RState) (w : Nat)
    (hw : t.workers.get? w = some WPhase.waiting) (hI : Inv cfg t) :
    Inv cfg (runAcquire cfg t w) := by
  obtain ⟨hwlt, -⟩ := List.get?_eq_some.mp hw
  have hru : runAcquire cfg t w =
      { queue := (acquire cfg t.queue t.visited t.unfinished t.trace).queue
        visited := (acquire cfg t.queue t.visited t.unfinished t.trace).visited
        results := t.results
        workers := t.workers.set w (acquire cfg t.queue t.visited t.unfinished t.trace).ph
        unfinished := (acquire cfg t.queue t.visited t.unfinished t.trace).unfinished
        trace := (acquire cfg t.queue t.visited t.unfinished t.trace).trace } := rfl
  rw [hru]
  set r := acquire cfg t.queue t.visited t.unfinished t.trace with hr
  have spec := acquire_spec cfg t.queue t.visited t.unfinished t.trace
  rw [← hr] at spec
  obtain ⟨evs, htr, hpu, hpr, hst, hse⟩ := spec.trace_ext
  have hvmono := spec.visited_mono
  have hnopush : ∀ b d', Event.push b d' ∉ evs := by
    intro b d' hmem
    have := (mem_pushList evs b d').mpr hmem
    rw [hpu] at this
    cases this
  refine ⟨?_, ?_, ?_, ?_, ?_, ?_, ?_, ?_, ?_, ?_, ?_, ?_, ?_⟩
  · -- count
    have hc := spec.count (inflight t.workers) hI.count
    have hset := inflight_set t.workers w r.ph WPhase.waiting hw
    have h0 : flagW WPhase.waiting = 0 := rfl
    rw [h0, Nat.add_zero] at hset
    show r.unfinished = r.queue.length + inflight (t.workers.set w r.ph)
    omega
  · -- queue_reach
    intro a d hmem
    exact dreachSet_mono_visited cfg hvmono d
      (hI.queue_reach a d (spec.queue_sub _ hmem))
  · -- fetch_wf
    intro i u d k hget
    by_cases hiw : i = w
    · subst hiw
      rw [List.get?_set_eq_of_lt _ hwlt] at hget
      injection hget with hget
      obtain ⟨hk0, hnv, hv', hq, hd, -⟩ := spec.fetch_case u d k hget
      subst hk0
      refine ⟨by simp [methods], hd, ?_, ?_⟩
      · rw [hv']; exact List.mem_append_right _ (List.mem_cons_self _ _)
      · exact dreachSet_mono_visited cfg hvmono d (hI.queue_reach u d hq)
    · rw [List.get?_set_ne _ _ (fun h => hiw h.symm)] at hget
      obtain ⟨h1, h2, h3, h4⟩ := hI.fetch_wf i u d k hget
      exact ⟨h1, h2, hvmono h3, dreachSet_mono_visited cfg hvmono d h4⟩
  · -- fetch_uniq
    intro i j u d k d' k' hi hj
    by_cases hiw : i = w <;> by_cases hjw : j = w
    · rw [hiw, hjw]
    · subst hiw
      rw [List.get?_set_eq_of_lt _ hwlt] at hi
      injection hi with hi
      obtain ⟨-, hnv, -, -, -, -⟩ := spec.fetch_case u d k hi
      rw [List.get?_set_ne _ _ (fun h => hjw h.symm)] at hj
      exact absurd (hI.fetch_wf j u d' k' hj).2.2.1 hnv
    · subst hjw
      rw [List.get?_set_eq_of_lt _ hwlt] at hj
      injection hj with hj
      obtain ⟨-, hnv, -, -, -, -⟩ := spec.fetch_case u d' k' hj
      rw [List.get?_set_ne _ _ (fun h => hiw h.symm)] at hi
      exact absurd (hI.fetch_wf i u d k hi).2.2.1 hnv
    · rw [List.get?_set_ne _ _ (fun h => hiw h.symm)] at hi
      rw [List.get?_set_ne _ _ (fun h => hjw h.symm)] at hj
      exact hI.fetch_uniq i j u d k d' k' hi hj
  · -- visited_start
    intro b
    have hcount : startCount r.trace b = startCount t.trace b + startCount evs b := by
      rw [htr, startCount_append]
    show b ∈ r.visited ↔ 1 ≤ startCount r.trace b
    cases hph : r.ph with
    | waiting =>
        have hb0 : startCount evs b = 0 := by
          have := hst b; rwa [hph] at this
        rw [(spec.wait_case hph).2, hcount, hb0, Nat.add_zero]
        exact hI.visited_start b
    | fetching a d0 k0 =>
        obtain ⟨-, hnv, hv', -, -, -⟩ := spec.fetch_case a d0 k0 hph
        have hb1 : startCount evs b = if b = a then 1 else 0 := by
          have := hst b; rwa [hph] at this
        rw [hv', hcount, hb1]
        by_cases hba : b = a
        · subst hba
          have h0 : startCount t.trace b = 0 := by
            have hiff := hI.visited_start b
            by_contra hne
            exact hnv (hiff.mpr (by omega))
          simp [h0]
        · simp only [if_neg hba, Nat.add_zero, List.mem_append,
            List.mem_singleton, hba, or_false]
          exact hI.visited_start b
  · -- start_once
    intro b
    have hcount : startCount r.trace b = startCount t.trace b + startCount evs b := by
      rw [htr, startCount_append]
    show startCount r.trace b ≤ 1
    cases hph : r.ph with
    | waiting =>
        have hb0 : startCount evs b = 0 := by
          have := hst b; rwa [hph] at this
        rw [hcount, hb0, Nat.add_zero]
        exact hI.start_once b
    | fetching a d0 k0 =>
        obtain ⟨-, hnv, -, -, -, -⟩ := spec.fetch_case a d0 k0 hph
        have hb1 : startCount evs b = if b = a then 1 else 0 := by
          have := hst b; rwa [hph] at this
        rw [hcount, hb1]
        by_cases hba : b = a
        · subst hba
          have h0 : startCount t.trace b = 0 := by
            have hiff := hI.visited_start b
            by_contra hne
            exact hnv (hiff.mpr (by omega))
          simp [h0]
        · rw [if_neg hba, Nat.add_zero]
          exact hI.start_once b
  · -- start_wf
    intro b d' hmem
    rw [htr] at hmem
    rcases List.mem_append.mp hmem with hm | hm
    · obtain ⟨h1, h2⟩ := hI.start_wf b d' hm
      exact ⟨h1, dreachSet_mono_visited cfg hvmono d' h2⟩
    · have hph := hse b d' hm
      obtain ⟨-, -, -, hq, hd, -⟩ := spec.fetch_case b d' 0 hph
      exact ⟨hd, dreachSet_mono_visited cfg hvmono d' (hI.queue_reach b d' hq)⟩
  · -- push_wf
    intro b d' hmem
    rw [htr] at hmem
    rcases List.mem_append.mp hmem with hm | hm
    · exact dreachSet_mono_visited cfg hvmono d' (hI.push_wf b d' hm)
    · exact absurd hm (hnopush b d')
  · -- push_resolved
    intro b d' hmem hd'
    rw [htr] at hmem
    rcases List.mem_append.mp hmem with hm | hm
    · rcases hI.push_resolved b d' hm hd' with hv | hq
      · exact Or.inl (hvmono hv)
      · exact spec.resolved b d' hq hd'
    · exact absurd hm (hnopush b d')
  · -- probes_not_started
    intro b hb
    have hbt : b ∉ t.visited := fun h => hb (hvmono h)
    show probesOf r.trace b = []
    rw [htr, probesOf_append, hI.probes_not_started b hbt,
      probesOf_nil_of_probeList_nil evs b hpr]
    rfl
  · -- probes_active
    intro i u d k hget
    show probesOf r.trace u = methods.take k
    by_cases hiw : i = w
    · subst hiw
      rw [List.get?_set_eq_of_lt _ hwlt] at hget
      injection hget with hget
      obtain ⟨hk0, hnv, -, -, -, -⟩ := spec.fetch_case u d k hget
      subst hk0
      rw [htr, probesOf_append, hI.probes_not_started u hnv,
        probesOf_nil_of_probeList_nil evs u hpr]
      rfl
    · rw [List.get?_set_ne _ _ (fun h => hiw h.symm)] at hget
      rw [htr, probesOf_append, hI.probes_active i u d k hget,
        probesOf_nil_of_probeList_nil evs u hpr, List.append_nil]
  · -- probes_done
    intro b hbv hnofetch
    have hbne : ∀ a d0 k0, r.ph = WPhase.fetching a d0 k0 → a ≠ b := by
      intro a d0 k0 hph
      apply hnofetch w a d0 k0
      rw [List.get?_set_eq_of_lt _ hwlt, hph]
    have hbtv : b ∈ t.visited := by
      cases hph : r.ph with
      | waiting => rw [(spec.wait_case hph).2] at hbv; exact hbv
      | fetching a d0 k0 =>
          obtain ⟨-, -, hv', -, -, -⟩ := spec.fetch_case a d0 k0 hph
          rw [hv'] at hbv
          rcases List.mem_append.mp hbv with h | h
          · exact h
          · exact absurd (List.mem_singleton.mp h).symm (hbne a d0 k0 hph)
    have hnt : ∀ i u d k, t.workers.get? i = some (WPhase.fetching u d k) → u ≠ b := by
      intro i u d k hget
      by_cases hiw : i = w
      · subst hiw; rw [hw] at hget; cases hget
      · apply hnofetch i u d k
        rw [List.get?_set_ne _ _ (fun h => hiw h.symm)]
        exact hget
    show probesOf r.trace b = methods
    rw [htr, probesOf_append, hI.probes_done b hbtv hnt,
      probesOf_nil_of_probeList_nil evs b hpr, List.append_nil]
  · -- results_probes
    show t.results = (probeList r.trace).filterMap
      (fun p => probeOutcome p.1 p.2 (cfg.oracle p.1 p.2))
    rw [htr, probeList_append, hpr, List.append_nil]
    exact hI.results_probes

/-- Small evaluation fact used when splitting the new trace. -/
theorem probesOf_probe_single (a m b : String) :
    probesOf [Event.probe a m] b = if a = b then [m] else [] := by
  by_cases h : a = b <;> simp [probesOf, List.filterMap_cons, h]

/-- Completing an outstanding fetch preserves the invariant. -/
theorem completeFetch_inv (cfg : Config) (s : RState) (w : Nat) (u : String)
    (d i : Nat) (m : String)
    (hw : s.workers.get? w = some (WPhase.fetching u d i))
    (hm : methods.get? i = some m)
    (hI : Inv cfg s) : Inv cfg (completeFetch cfg s w u d i m) := by
  obtain ⟨hwlt, -⟩ := List.get?_eq_some.mp hw
  obtain ⟨hilt, hdle, huv, hur⟩ := hI.fetch_wf w u d i hw
  have h6 : methods.length = 6 := rfl
  set ls := probeLinks cfg u m (cfg.oracle u m) with hls
  have hlsreach : ∀ l ∈ ls, l ∈ dreachSet cfg s.visited (d + 1) := fun l hl =>
    mem_dreachSet_step cfg s.visited hur huv (probeLinks_subset_pageLinks cfg u m l hl)
  -- facts about the extended trace
  have htr_start : ∀ b, startCount ((s.trace ++ [Event.probe u m]) ++
      ls.map (fun l => Event.push l (d + 1))) b = startCount s.trace b := by
    intro b
    rw [startCount_append, startCount_append, startCount_map_push]
    have : startCount [Event.probe u m] b = 0 := rfl
    omega
  have htr_startmem : ∀ b δ, Event.start b δ ∈ ((s.trace ++ [Event.probe u m]) ++
      ls.map (fun l => Event.push l (d + 1))) → Event.start b δ ∈ s.trace := by
    intro b δ hmem
    rcases List.mem_append.mp hmem with hmem1 | hmem2
    · rcases List.mem_append.mp hmem1 with h | h
      · exact h
      · cases List.mem_singleton.mp h
    · exact absurd hmem2 (start_not_mem_map_push ls (d + 1) b δ)
  have htr_pushmem : ∀ b δ, Event.push b δ ∈ ((s.trace ++ [Event.probe u m]) ++
      ls.map (fun l => Event.push l (d + 1))) →
      Event.push b δ ∈ s.trace ∨ (b ∈ ls ∧ δ = d + 1) := by
    intro b δ hmem
    rcases List.mem_append.mp hmem with hmem1 | hmem2
    · rcases List.mem_append.mp hmem1 with h | h
      · exact Or.inl h
      · cases List.mem_singleton.mp h
    · obtain ⟨l, hlmem, hleq⟩ := List.mem_map.mp hmem2
      injection hleq with h1 h2
      exact Or.inr ⟨h1 ▸ hlmem, h2.symm⟩
  have htr_probes : ∀ b, probesOf ((s.trace ++ [Event.probe u m]) ++
      ls.map (fun l => Event.push l (d + 1))) b =
      probesOf s.trace b ++ (if u = b then [m] else []) := by
    intro b
    rw [probesOf_append, probesOf_append, probesOf_map_push, List.append_nil,
      probesOf_probe_single]
  have htr_probeList : probeList ((s.trace ++ [Event.probe u m]) ++
      ls.map (fun l => Event.push l (d + 1))) = probeList s.trace ++ [(u, m)] := by
    rw [probeList_append, probeList_append, probeList_map_push, List.append_nil]
    rfl
  -- facts about the extended queue
  have hq_reach : ∀ a δ, (a, δ) ∈ s.queue ++ ls.map (fun l => (l, d + 1)) →
      a ∈ dreachSet cfg s.visited δ := by
    intro a δ hmem
    rcases List.mem_append.mp hmem with h | h
    · exact hI.queue_reach a δ h
    · obtain ⟨l, hlmem, hleq⟩ := List.mem_map.mp h
      injection hleq with h1 h2
      subst h1; subst h2
      exact hlsreach _ hlmem
  -- the result log extension matches the probe-trace extension
  have hres : s.results ++ (probeOutcome u m (cfg.oracle u m)).toList =
      (probeList s.trace ++ [(u, m)]).filterMap
        (fun p => probeOutcome p.1 p.2 (cfg.oracle p.1 p.2)) := by
    rw [List.filterMap_append, ← hI.results_probes]
    cases horc : cfg.oracle u m <;>
      simp [probeOutcome, List.filterMap_cons, horc]
  -- no other worker holds the same address
  have huniq_ne : ∀ j u' d' k', j ≠ w →
      s.workers.get? j = some (WPhase.fetching u' d' k') → u' ≠ u := by
    intro j u' d' k' hj hg heq
    subst heq
    exact hj (hI.fetch_uniq j w u' d' k' d i hg hw)
  by_cases hbr : i + 1 < methods.length
  · -- next method of the same item
    have hstate : completeFetch cfg s w u d i m =
        { queue := s.queue ++ ls.map (fun l => (l, d + 1))
          visited := s.visited
          results := s.results ++ (probeOutcome u m (cfg.oracle u m)).toList
          workers := s.workers.set w (WPhase.fetching u d (i + 1))
          unfinished := s.unfinished + ls.length
          trace := (s.trace ++ [Event.probe u m]) ++
            ls.map (fun l => Event.push l (d + 1)) } := by
      simp only [completeFetch]
      rw [if_pos hbr]
    rw [hstate]
    refine ⟨?_, ?_, ?_, ?_, ?_, ?_, ?_, ?_, ?_, ?_, ?_, ?_, ?_⟩
    · -- count
      show s.unfinished + ls.length =
        (s.queue ++ ls.map (fun l => (l, d + 1))).length +
          inflight (s.workers.set w (WPhase.fetching u d (i + 1)))
      have hset := inflight_set s.workers w (WPhase.fetching u d (i + 1))
        (WPhase.fetching u d i) hw
      have hc := hI.count
      simp only [flagW] at hset
      rw [List.length_append, List.length_map]
      omega
    · -- queue_reach
      exact hq_reach
    · -- fetch_wf
      intro j u' d' k' hget
      by_cases hjw : j = w
      · rw [hjw, List.get?_set_eq_of_lt _ hwlt] at hget
        injection hget with hget
        injection hget with e1 e2 e3
        subst e1; subst e2; subst e3
        exact ⟨hbr, hdle, huv, hur⟩
      · rw [List.get?_set_ne _ _ (fun h => hjw h.symm)] at hget
        exact hI.fetch_wf j u' d' k' hget
    · -- fetch_uniq
      intro j j' u' d' k' d'' k'' hj hj'
      by_cases hjw : j = w <;> by_cases hj'w : j' = w
      · rw [hjw, hj'w]
      · rw [hjw, List.get?_set_eq_of_lt _ hwlt] at hj
        injection hj with hj
        injection hj with e1 e2 e3
        rw [List.get?_set_ne _ _ (fun h => hj'w h.symm)] at hj'
        exact absurd e1.symm (huniq_ne j' u' d'' k'' hj'w hj')
      · rw [hj'w, List.get?_set_eq_of_lt _ hwlt] at hj'
        injection hj' with hj'
        injection hj' with e1 e2 e3
        rw [List.get?_set_ne _ _ (fun h => hjw h.symm)] at hj
        exact absurd e1.symm (huniq_ne j u' d' k' hjw hj)
      · rw [List.get?_set_ne _ _ (fun h => hjw h.symm)] at hj
        rw [List.get?_set_ne _ _ (fun h => hj'w h.symm)] at hj'
        exact hI.fetch_uniq j j' u' d' k' d'' k'' hj hj'
    · -- visited_start
      intro b
      rw [htr_start b]
      exact hI.visited_start b
    · -- start_once
      intro b
      rw [htr_start b]
      exact hI.start_once b
    · -- start_wf
      intro b δ hmem
      exact hI.start_wf b δ (htr_startmem b δ hmem)
    · -- push_wf
      intro b δ hmem
      rcases htr_pushmem b δ hmem with h | ⟨hmem', rfl⟩
      · exact hI.push_wf b δ h
      · exact hlsreach _ hmem'
    · -- push_resolved
      intro b δ hmem hδ
      rcases htr_pushmem b δ hmem with h | ⟨hmem', rfl⟩
      · rcases hI.push_resolved b δ h hδ with hv | hq
        · exact Or.inl hv
        · exact Or.inr (List.mem_append_left _ hq)
      · exact Or.inr (List.mem_append_right _ (List.mem_map.mpr ⟨b, hmem', rfl⟩))
    · -- probes_not_started
      intro b hb
      rw [htr_probes b, hI.probes_not_started b hb,
        if_neg (fun h : u = b => hb (h ▸ huv)), List.append_nil]
    · -- probes_active
      intro j u' d' k' hget
      by_cases hjw : j = w
      · rw [hjw, List.get?_set_eq_of_lt _ hwlt] at hget
        injection hget with hget
        injection hget with e1 e2 e3
        subst e1; subst e2; subst e3
        rw [htr_probes u, if_pos rfl, hI.probes_active w u d i hw,
          List.take_succ, ← List.get?_eq_getElem?, hm]
        rfl
      · rw [List.get?_set_ne _ _ (fun h => hjw h.symm)] at hget
        have hne := huniq_ne j u' d' k' hjw hget
        rw [htr_probes u', if_neg (fun h : u = u' => hne h.symm), List.append_nil]
        exact hI.probes_active j u' d' k' hget
    · -- probes_done
      intro b hbv hnofetch
      have hbu : u ≠ b := hnofetch w u d (i + 1)
        (by rw [List.get?_set_eq_of_lt _ hwlt])
      have hnt : ∀ j u' d' k',
          s.workers.get? j = some (WPhase.fetching u' d' k') → u' ≠ b := by
        intro j u' d' k' hget
        by_cases hjw : j = w
        · rw [hjw, hw] at hget
          injection hget with hget
          injection hget with e1 e2 e3
          exact e1 ▸ hbu
        · exact hnofetch j u' d' k'
            (by rw [List.get?_set_ne _ _ (fun h => hjw h.symm)]; exact hget)
      rw [htr_probes b, if_neg hbu, List.append_nil]
      exact hI.probes_done b hbv hnt
    · -- results_probes
      rw [htr_probeList]
      exact hres
  · -- last method done: task_done and re-enter the pop loop
    have hi5 : i = 5 := by omega
    have hstate : completeFetch cfg s w u d i m =
        runAcquire cfg
          { queue := s.queue ++ ls.map (fun l => (l, d + 1))
            visited := s.visited
            results := s.results ++ (probeOutcome u m (cfg.oracle u m)).toList
            workers := s.workers
            unfinished := s.unfinished + ls.length - 1
            trace := (s.trace ++ [Event.probe u m]) ++
              ls.map (fun l => Event.push l (d + 1)) } w := by
      simp only [completeFetch]
      rw [if_neg hbr]
    have hmid : runAcquire cfg
        { queue := s.queue ++ ls.map (fun l => (l, d + 1))
          visited := s.visited
          results := s.results ++ (probeOutcome u m (cfg.oracle u m)).toList
          workers := s.workers
          unfinished := s.unfinished + ls.length - 1
          trace := (s.trace ++ [Event.probe u m]) ++
            ls.map (fun l => Event.push l (d + 1)) } w =
        runAcquire cfg
        { queue := s.queue ++ ls.map (fun l => (l, d + 1))
          visited := s.visited
          results := s.results ++ (probeOutcome u m (cfg.oracle u m)).toList
          workers := s.workers.set w WPhase.waiting
          unfinished := s.unfinished + ls.length - 1
          trace := (s.trace ++ [Event.probe u m]) ++
            ls.map (fun l => Event.push l (d + 1)) } w := by
      simp only [runAcquire, List.set_set]
    rw [hstate, hmid]
    apply runAcquire_inv
    · show (s.workers.set w WPhase.waiting).get? w = some WPhase.waiting
      rw [List.get?_set_eq_of_lt _ hwlt]
    -- the invariant holds of the intermediate task_done state
    refine ⟨?_, ?_, ?_, ?_, ?_, ?_, ?_, ?_, ?_, ?_, ?_, ?_, ?_⟩
    · -- count
      show s.unfinished + ls.length - 1 =
        (s.queue ++ ls.map (fun l => (l, d + 1))).length +
          inflight (s.workers.set w WPhase.waiting)
      have hset := inflight_set s.workers w WPhase.waiting
        (WPhase.fetching u d i) hw
      have hc := hI.count
      simp only [flagW] at hset
      rw [List.length_append, List.length_map]
      omega
    · -- queue_reach
      exact hq_reach
    · -- fetch_wf
      intro j u' d' k' hget
      by_cases hjw : j = w
      · rw [hjw, List.get?_set_eq_of_lt _ hwlt] at hget
        injection hget with hget
        cases hget
      · rw [List.get?_set_ne _ _ (fun h => hjw h.symm)] at hget
        exact hI.fetch_wf j u' d' k' hget
    · -- fetch_uniq
      intro j j' u' d' k' d'' k'' hj hj'
      by_cases hjw : j = w
      · rw [hjw, List.get?_set_eq_of_lt _ hwlt] at hj
        injection hj with hj
        cases hj
      · by_cases hj'w : j' = w
        · rw [hj'w, List.get?_set_eq_of_lt _ hwlt] at hj'
          injection hj' with hj'
          cases hj'
        · rw [List.get?_set_ne _ _ (fun h => hjw h.symm)] at hj
          rw [List.get?_set_ne _ _ (fun h => hj'w h.symm)] at hj'
          exact hI.fetch_uniq j j' u' d' k' d'' k'' hj hj'
    · -- visited_start
      intro b
      rw [htr_start b]
      exact hI.visited_start b
    · -- start_once
      intro b
      rw [htr_start b]
      exact hI.start_once b
    · -- start_wf
      intro b δ hmem
      exact hI.start_wf b δ (htr_startmem b δ hmem)
    · -- push_wf
      intro b δ hmem
      rcases htr_pushmem b δ hmem with h | ⟨hmem', rfl⟩
      · exact hI.push_wf b δ h
      · exact hlsreach _ hmem'
    · -- push_resolved
      intro b δ hmem hδ
      rcases htr_pushmem b δ hmem with h | ⟨hmem', rfl⟩
      · rcases hI.push_resolved b δ h hδ with hv | hq
        · exact Or.inl hv
        · exact Or.inr (List.mem_append_left _ hq)
      · exact Or.inr (List.mem_append_right _ (List.mem_map.mpr ⟨b, hmem', rfl⟩))
    · -- probes_not_started
      intro b hb
      rw [htr_probes b, hI.probes_not_started b hb,
        if_neg (fun h : u = b => hb (h ▸ huv)), List.append_nil]
    · -- probes_active
      intro j u' d' k' hget
      by_cases hjw : j = w
      · rw [hjw, List.get?_set_eq_of_lt _ hwlt] at hget
        injection hget with hget
        cases hget
      · rw [List.get?_set_ne _ _ (fun h => hjw h.symm)] at hget
        have hne := huniq_ne j u' d' k' hjw hget
        rw [htr_probes u', if_neg (fun h : u = u' => hne h.symm), List.append_nil]
        exact hI.probes_active j u' d' k' hget
    · -- probes_done
      intro b hbv hnofetch
      have hnt : ∀ j u' d' k',
          s.workers.get? j = some (WPhase.fetching u' d' k') →
          j ≠ w → u' ≠ b := by
        intro j u' d' k' hget hjw
        exact hnofetch j u' d' k'
          (by rw [List.get?_set_ne _ _ (fun h => hjw h.symm)]; exact hget)
      by_cases hbu : b = u
      · -- the just-finished address: all six probes are now recorded
        subst hbu
        have hm' : m = "OPTIONS" := by
          rw [hi5] at hm
          injection hm with h
          exact h.symm
        rw [htr_probes b, if_pos rfl, hI.probes_active w b d i hw, hi5, hm']
        rfl
      · have hnt' : ∀ j u' d' k',
            s.workers.get? j = some (WPhase.fetching u' d' k') → u' ≠ b := by
          intro j u' d' k' hget
          by_cases hjw : j = w
          · rw [hjw, hw] at hget
            injection hget with hget
            injection hget with e1 e2 e3
            exact fun h => hbu ((e1.trans h).symm)
          · exact hnt j u' d' k' hget hjw
        rw [htr_probes b, if_neg (fun h : u = b => hbu h.symm), List.append_nil]
        exact hI.probes_done b hbv hnt'
    · -- results_probes
      rw [htr_probeList]
      exact hres

/-- Every scheduler step preserves the invariant. -/
theorem step_inv (cfg : Config) (s : RState) (a : Act) (hI : Inv cfg s) :
    Inv cfg (step cfg s a) := by
  cases a with
  | wake w =>
      simp only [step]
      cases hget : s.workers.get? w with
      | none => exact hI
      | some ph =>
          cases ph with
          | waiting =>
              by_cases hq : s.queue = []
              · rw [if_pos hq]; exact hI
              · rw [if_neg hq]; exact runAcquire_inv cfg s w hget hI
          | fetching u d i => exact hI
  | complete w =>
      simp only [step]
      cases hget : s.workers.get? w with
      | none => exact hI
      | some ph =>
          cases ph with
          | waiting => exact hI
          | fetching u d i =>
              show Inv cfg (match methods.get? i with
                | some m => completeFetch cfg s w u d i m
                | none => s)
              cases hm : methods.get? i with
              | none => exact hI
              | some m => exact completeFetch_inv cfg s w u d i m hget hm hI

theorem inflight_replicate_waiting (n : Nat) :
    inflight (List.replicate n WPhase.waiting) = 0 := by
  induction n with
  | zero => rfl
  | succ k ih => simpa [List.replicate_succ, inflight] using ih

/-- The initial state satisfies the invariant. -/
theorem initR_inv (cfg : Config) (conc : Nat) : Inv cfg (initR cfg conc) := by
  refine ⟨?_, ?_, ?_, ?_, ?_, ?_, ?_, ?_, ?_, ?_, ?_, ?_, ?_⟩
  · show 1 = [(cfg.seed, 0)].length + inflight (List.replicate conc WPhase.waiting)
    rw [inflight_replicate_waiting]
    rfl
  · intro a d hmem
    rcases List.mem_singleton.mp hmem with h
    injection h with h1 h2
    subst h1; subst h2
    exact List.mem_singleton.mpr rfl
  · intro i u d k hget
    have hmem := List.get?_mem hget
    cases List.eq_of_mem_replicate hmem
  · intro i j u d k d' k' hi hj
    have hmem := List.get?_mem hi
    cases List.eq_of_mem_replicate hmem
  · intro b
    simp [initR, startCount]
  · intro b
    simp [initR, startCount]
  · intro b δ hmem
    cases hmem
  · intro b δ hmem
    cases hmem
  · intro b δ hmem
    cases hmem
  · intro b _
    rfl
  · intro i u d k hget
    have hmem := List.get?_mem hget
    cases List.eq_of_mem_replicate hmem
  · intro b hbv
    cases hbv
  · rfl

/-- The invariant holds of every state any schedule can reach. -/
theorem exec_inv (cfg : Config) (conc : Nat) (acts : List Act) :
    Inv cfg (exec cfg conc acts) := by
  have h : ∀ (l : List Act) (s : RState), Inv cfg s → Inv cfg (l.foldl (step cfg) s) := by
    intro l
    induction l with
    | nil => intro s hs; exact hs
    | cons a rest ih => intro s hs; exact ih _ (step_inv cfg s a hs)
  exact h acts _ (initR_inv cfg conc)

/-! ## Consequences of the invariant used by the claims -/

theorem startCount_start_singleton (b : String) (d : Nat) (a : String) :
    startCount [Event.start b d] a = if b = a then 1 else 0 := by
  by_cases hba : b = a
  · subst hba; simp [startCount]
  · simp [startCount, hba]

theorem exists_start_of_startCount_pos (tr : List Event) (a : String)
    (h : 1 ≤ startCount tr a) : ∃ d, Event.start a d ∈ tr := by
  induction tr with
  | nil => simp [startCount] at h
  | cons e rest ih =>
      have hs := startCount_append [e] rest a
      rw [List.singleton_append] at hs
      cases e with
      | start b d =>
          by_cases hba : b = a
          · exact ⟨d, by rw [hba]; exact List.mem_cons_self _ _⟩
          · rw [hs, startCount_start_singleton, if_neg hba] at h
            obtain ⟨d', hd'⟩ := ih (by omega)
            exact ⟨d', List.mem_cons_of_mem _ hd'⟩
      | push b d =>
          have h0 : startCount [Event.push b d] a = 0 := rfl
          rw [hs, h0] at h
          obtain ⟨d', hd'⟩ := ih (by omega)
          exact ⟨d', List.mem_cons_of_mem _ hd'⟩
      | probe b m =>
          have h0 : startCount [Event.probe b m] a = 0 := rfl
          rw [hs, h0] at h
          obtain ⟨d', hd'⟩ := ih (by omega)
          exact ⟨d', List.mem_cons_of_mem _ hd'⟩
      | skip b d =>
          have h0 : startCount [Event.skip b d] a = 0 := rfl
          rw [hs, h0] at h
          obtain ⟨d', hd'⟩ := ih (by omega)
          exact ⟨d', List.mem_cons_of_mem _ hd'⟩

theorem probeOutcome_url {u m : String} {r? : Option FetchResp} {o : Outcome}
    (h : probeOutcome u m r? = some o) : o.url = u ∧ o.method = m := by
  cases r? with
  | none => cases h
  | some r =>
      injection h with h
      rw [← h]
      exact ⟨rfl, rfl⟩

/-- A probed address is visited. -/
theorem visited_of_probe (cfg : Config) (s : RState) (hI : Inv cfg s)
    (a m : String) (h : Event.probe a m ∈ s.trace) : a ∈ s.visited := by
  by_contra hnv
  exact probesOf_ne_nil_of_mem s.trace a m h (hI.probes_not_started a hnv)

/-- A visited address is reachable from the seed within the depth bound
along the discovered link graph. -/
theorem visited_reachable (cfg : Config) (s : RState) (hI : Inv cfg s)
    (a : String) (ha : a ∈ s.visited) :
    a ∈ dreachSet cfg s.visited cfg.maxDepth := by
  obtain ⟨d, hd⟩ := exists_start_of_startCount_pos s.trace a
    ((hI.visited_start a).mp ha)
  obtain ⟨hdle, hreach⟩ := hI.start_wf a d hd
  exact dreachSet_mono_depth cfg s.visited hdle hreach

theorem filter_filterMap_url (cfg : Config) (l : List (String × String)) (a : String) :
    (l.filterMap (fun p => probeOutcome p.1 p.2 (cfg.oracle p.1 p.2))).filter
      (fun o => o.url = a) =
    (l.filter (fun p => p.1 = a)).filterMap
      (fun p => probeOutcome p.1 p.2 (cfg.oracle p.1 p.2)) := by
  induction l with
  | nil => rfl
  | cons p rest ih =>
      obtain ⟨b, m⟩ := p
      by_cases hba : b = a
      · subst hba
        cases horc : cfg.oracle b m with
        | none =>
            simp only [List.filterMap_cons, List.filter_cons, horc, probeOutcome,
              Option.map_none', decide_True, if_true]
            exact ih
        | some r =>
            simp only [List.filterMap_cons, List.filter_cons, horc, probeOutcome,
              Option.map_some', decide_True, if_true, List.filter_cons_of_pos]
            simpa [probeOutcome] using ih
      · cases horc : cfg.oracle b m with
        | none =>
            simp only [List.filterMap_cons, List.filter_cons, horc, probeOutcome,
              Option.map_none', hba, decide_False, if_false]
            exact ih
        | some r =>
            simp only [List.filterMap_cons, List.filter_cons, horc, probeOutcome,
              Option.map_some', hba, decide_False, if_false]
            simpa [probeOutcome, hba] using ih

theorem probeList_filter_eq (tr : List Event) (a : String) :
    (probeList tr).filter (fun p => p.1 = a) =
      (probesOf tr a).map (fun m => (a, m)) := by
  induction tr with
  | nil => rfl
  | cons e rest ih =>
      cases e with
      | probe b m =>
          by_cases hba : b = a
          · subst hba
            simp only [probeList, probesOf, List.filterMap_cons, List.filter_cons,
              decide_True, if_true, if_pos rfl, List.map_cons]
            exact congrArg (List.cons (b, m)) ih
          · simp only [probeList, probesOf, List.filterMap_cons, List.filter_cons,
              hba, decide_False, if_false, if_neg hba]
            exact ih
      | push b d =>
          simp only [probeList, probesOf, List.filterMap_cons]
          exact ih
      | start b d =>
          simp only [probeList, probesOf, List.filterMap_cons]
          exact ih
      | skip b d =>
          simp only [probeList, probesOf, List.filterMap_cons]
          exact ih

theorem no_fetching_of_inflight_zero (ws : List WPhase) (h : inflight ws = 0) :
    ∀ i u d k, ws.get? i = some (WPhase.fetching u d k) → False := by
  intro i u d k hget
  have hmem := List.get?_mem hget
  cases (inflight_eq_zero_iff ws).mp h _ hmem

/-- In a quiescent state, the outcomes recorded for a visited address are
exactly the successful probes of the six methods, in method order. -/
theorem quiescent_resultsFor (cfg : Config) (s : RState) (hI : Inv cfg s)
    (hq : s.unfinished = 0) (a : String) (ha : a ∈ s.visited) :
    resultsFor s a = methods.filterMap (fun m => probeOutcome a m (cfg.oracle a m)) := by
  have hc := hI.count
  have hinf : inflight s.workers = 0 := by omega
  have hnf := no_fetching_of_inflight_zero s.workers hinf
  have hdone := hI.probes_done a ha
    (fun i u d k hget => absurd (hnf i u d k hget) (fun h => h))
  show s.results.filter (fun o => o.url = a) = _
  rw [hI.results_probes, filter_filterMap_url, probeList_filter_eq, hdone,
    List.filterMap_map]
  rfl

/-- The results appended by the method loop are exactly the successful
probes, one per method in order; failed probes append nothing. -/
theorem foldl_probeStep_results (cfg : Config) (url : String) (depth : Nat) :
    ∀ (ms : List String) (s0 : SState),
      (ms.foldl (probeStep cfg url depth) s0).results =
        s0.results ++ ms.filterMap (fun m => probeOutcome url m (cfg.oracle url m)) := by
  intro ms
  induction ms with
  | nil => intro s0; simp
  | cons m rest ih =>
      intro s0
      rw [List.foldl_cons, ih, List.filterMap_cons]
      cases horc : cfg.oracle url m with
      | none => simp [probeStep, horc, probeOutcome]
      | some r => simp [probeStep, horc, probeOutcome]

/-! ## Concrete fixtures for counterexamples and witnesses

A small fixed site: each page's GET body is its own URL and `adjX` lists
the raw references found in it; GET succeeds with an html content type and
every other method fails. -/

/-- Raw references of each fixture page. -/
def adjX (u : String) : List String :=
  if u = "http://s/" then ["http://x1/", "http://x2/"]
  else if u = "http://x1/" then ["http://y/"]
  else if u = "http://x2/" then ["http://p/"]
  else if u = "http://y/" then ["http://p/"]
  else if u = "http://p/" then ["http://q/"]
  else []

/-- Fixture oracle: GET succeeds, all other methods fail. -/
def orcX : Oracle := fun _ m =>
  if m = "GET" then some ⟨200, "page", [("Content-Type", "text/html")]⟩ else none

/-- Fixture oracle variant whose GET body is the page URL, so the
reference extraction can be keyed by page. -/
def orcPage : Oracle := fun u m =>
  if m = "GET" then some ⟨200, u, [("Content-Type", "text/html")]⟩ else none

/-- Fixture spider: seed http://s/, depth bound 3. -/
def cfg9 : Config :=
  { seed := "http://s/", maxDepth := 3, oracle := orcPage,
    join := fun _ l => l, refs := adjX }

/-- Fixture spider with depth bound 0 (same site). -/
def cfg0 : Config :=
  { seed := "http://s/", maxDepth := 0, oracle := orcPage,
    join := fun _ l => l, refs := adjX }

/-- Raw references for the duplicate-discovery fixture: two distinct
pages a and b both reference c. -/
def adjDup (u : String) : List String :=
  if u = "http://s/" then ["http://a/", "http://b/"]
  else if u = "http://a/" then ["http://c/"]
  else if u = "http://b/" then ["http://c/"]
  else []

/-- Duplicate-discovery fixture spider, depth bound 1. -/
def cfg8 : Config :=
  { seed := "http://s/", maxDepth := 1, oracle := orcPage,
    join := fun _ l => l, refs := adjDup }

/-- A complete single-worker schedule for `cfg9` (36 fetch completions). -/
def sched1 : List Act := Act.wake 0 :: List.replicate 36 (Act.complete 0)

/-- A complete two-worker schedule for `cfg9` in which worker 1's fetch of
http://x2/ is slow: worker 0 meanwhile processes http://y/ and reaches
http://p/ at depth 3, so http://q/ is discovered only at depth 4 and is
never probed. -/
def sched2 : List Act :=
  [Act.wake 0, Act.complete 0, Act.wake 1] ++
  List.replicate 6 (Act.complete 1) ++
  List.replicate 17 (Act.complete 0) ++
  List.replicate 6 (Act.complete 1)

/-- A complete single-worker schedule for `cfg0` (the seed's 6 probes). -/
def sched0 : List Act := Act.wake 0 :: List.replicate 6 (Act.complete 0)

/-- A complete single-worker schedule for `cfg8` (18 fetch completions). -/
def sched8 : List Act := Act.wake 0 :: List.replicate 18 (Act.complete 0)

/-- A spider whose seed GET succeeds with a non-html body and whose other
probes fail. -/
def cfgPlain : Config :=
  { seed := "http://a/", maxDepth := 2
    oracle := fun _ m => if m = "GET" then some ⟨200, "", []⟩ else none
    join := fun _ l => l, refs := fun _ => [] }

/-! ## The claims -/

/-- Claim C1, counterexample: in a completed single-worker run the address
http://p/ is admitted to (pushed onto) the Frontier twice — once at depth 2
and once at depth 3 — refuting that an address is added to the Visited Set
at Frontier-admission time and hence enqueued at most once per run. -/
theorem C1_counterexample :
    ((pushList (exec cfg9 1 sched1).trace).filter
        (fun p => p.1 = "http://p/")).length = 2 ∧
      (exec cfg9 1 sched1).unfinished = 0 := by decide

/-- Claim C1, amended: the code adds an address to the Visited Set when a
worker begins processing it (the dequeue-side guard of lines 123-125), not
at enqueue time; an address may be enqueued repeatedly, but in every run,
under every schedule, it is accepted for processing at most once, and the
Visited Set is exactly the set of accepted addresses. -/
theorem C1_amended (cfg : Config) (conc : Nat) (acts : List Act) (a : String) :
    startCount (exec cfg conc acts).trace a ≤ 1 ∧
      (a ∈ (exec cfg conc acts).visited ↔
        1 ≤ startCount (exec cfg conc acts).trace a) :=
  ⟨(exec_inv cfg conc acts).start_once a, (exec_inv cfg conc acts).visited_start a⟩

/-- Claim C2, counterexample: http://a/ is accepted and processed (all six
methods attempted), its POST probe fails, and the Result Log contains no
POST entry at all — the failed probe is silently omitted instead of being
recorded as a degraded outcome with absent status. -/
theorem C2_counterexample :
    cfgPlain.oracle "http://a/" "POST" = none ∧
    "http://a/" ∈ (process_url cfgPlain ⟨[], [], []⟩ "http://a/" 0).visited ∧
    ((process_url cfgPlain ⟨[], [], []⟩ "http://a/" 0).results.filter
      (fun o => o.method = "POST")) = [] := by decide

/-- Claim C2, amended: processing an accepted address appends exactly one
outcome per successful probe, in method order, and appends nothing for a
failed probe (`if status is not None` guard, line 129): failures are
omitted from the Result Log rather than recorded with absent status. -/
theorem C2_amended (cfg : Config) (s : SState) (url : String) (depth : Nat) :
    (process_url cfg s url depth).results =
      s.results ++ (if url ∈ s.visited ∨ depth > cfg.maxDepth then []
        else methods.filterMap (fun m => probeOutcome url m (cfg.oracle url m))) := by
  by_cases h : url ∈ s.visited ∨ depth > cfg.maxDepth
  · rw [process_url, if_pos h, if_pos h, List.append_nil]
  · rw [process_url, if_neg h, if_neg h, foldl_probeStep_results]

/-- Claim C3, counterexample: in a completed run with max_depth = 0 the
link-derived item (http://x1/, 1) is pushed onto the Frontier even though
its depth exceeds the bound — `queue.put` (line 140) performs no depth
check. -/
theorem C3_counterexample :
    cfg0.maxDepth = 0 ∧
    Event.push "http://x1/" 1 ∈ (exec cfg0 1 sched0).trace ∧
    (exec cfg0 1 sched0).unfinished = 0 := by decide

/-- Claim C3, amended: discovered links are pushed unguarded at depth + 1;
the depth bound is enforced only when items are popped (line 123), so in a
run with max_depth = 0 link-derived items may enter the Frontier but every
probe that occurs is of the seed. -/
theorem C3_amended (cfg : Config) (conc : Nat) (acts : List Act)
    (a m : String) (h0 : cfg.maxDepth = 0)
    (h : (a, m) ∈ probeList (exec cfg conc acts).trace) : a = cfg.seed := by
  have hI := exec_inv cfg conc acts
  have hpr := (mem_probeList _ a m).mp h
  have hv := visited_of_probe cfg _ hI a m hpr
  have hr := visited_reachable cfg _ hI a hv
  rw [h0] at hr
  exact List.mem_singleton.mp hr

/-- Claim C3, amended, witness: the amended theorem applied to the
max_depth = 0 fixture run at the seed's GET probe. -/
theorem C3_amended_witness :
    cfg0.maxDepth = 0 ∧
    ("http://s/", "GET") ∈ probeList (exec cfg0 1 sched0).trace ∧
    "http://s/" = cfg0.seed :=
  ⟨rfl, by decide, C3_amended cfg0 1 sched0 "http://s/" "GET" rfl (by decide)⟩

/-- Claim C4: an address with no path of at most max_depth hops from the
seed in the discovered link graph (links contributed by fetched pages)
never receives an outcome in the Result Log, under any schedule and
concurrency. -/
theorem C4_depth_bound (cfg : Config) (conc : Nat) (acts : List Act) (a : String)
    (h : a ∉ dreachSet cfg (exec cfg conc acts).visited cfg.maxDepth) :
    ∀ o ∈ (exec cfg conc acts).results, o.url ≠ a := by
  intro o ho heq
  have hI := exec_inv cfg conc acts
  rw [hI.results_probes] at ho
  obtain ⟨p, hp, hpo⟩ := List.mem_filterMap.mp ho
  obtain ⟨b, m⟩ := p
  obtain ⟨hu, -⟩ := probeOutcome_url hpo
  have hba : b = a := hu.symm.trans heq
  subst hba
  have hpr := (mem_probeList _ b m).mp hp
  have hv := visited_of_probe cfg _ hI b m hpr
  exact h (visited_reachable cfg _ hI b hv)

/-- Claim C4, witness: applied to the max_depth = 0 fixture, where
http://x1/ is only reachable in one hop: no outcome mentions it. -/
theorem C4_witness :
    ("http://x1/" ∉ dreachSet cfg0 (exec cfg0 1 sched0).visited cfg0.maxDepth) ∧
    ∀ o ∈ (exec cfg0 1 sched0).results, o.url ≠ "http://x1/" :=
  ⟨by decide, C4_depth_bound cfg0 1 sched0 "http://x1/" (by decide)⟩

/-- Claim C5: in every reachable state of every schedule, the counter that
`queue.join()` waits on is zero exactly when the Frontier is empty and
every worker is idle (each popped item marked done) — items pushed by a
worker still holding an item keep the counter positive, so the wait cannot
fire while any worker may still push more work. -/
theorem C5_quiescence (cfg : Config) (conc : Nat) (acts : List Act) :
    (exec cfg conc acts).unfinished = 0 ↔
      ((exec cfg conc acts).queue = [] ∧
        ∀ w ∈ (exec cfg conc acts).workers, w = WPhase.waiting) := by
  have hc := (exec_inv cfg conc acts).count
  constructor
  · intro h
    have hq : (exec cfg conc acts).queue.length = 0 := by omega
    have hinf : inflight (exec cfg conc acts).workers = 0 := by omega
    exact ⟨List.length_eq_zero.mp hq, (inflight_eq_zero_iff _).mp hinf⟩
  · rintro ⟨hq, hw⟩
    rw [hc, hq, (inflight_eq_zero_iff _).mpr hw]
    rfl

/-- Claim C6, counterexample: the constructor accepts a seed whose scheme
is ftp together with concurrency 0 — it builds the engine state and
enqueues the seed — while the spec's validating constructor rejects that
configuration; no configuration error surfaces before traversal. -/
theorem C6_counterexample :
    is_valid "ftp://example.com/" = false ∧
    initSpecValidating "ftp://example.com/" 2 0 =
      Except.error "invalid seed scheme" ∧
    (init "ftp://example.com/" 2 0).queue = [("ftp://example.com/", 0)] := by
  refine ⟨by decide, ?_, rfl⟩
  rw [initSpecValidating, if_pos (by decide)]

/-- Claim C6, amended: `__init__` performs no validation at all: any seed
string and any concurrency (including non-positive) are stored as given,
the visited set and result log start empty, and the seed is enqueued at
depth 0; invalid configurations surface only later, during the run. -/
theorem C6_amended (url : String) (md : Nat) (c : Int) (ofile lfile : String) :
    (init url md c ofile lfile).queue = [(url, 0)] ∧
    (init url md c ofile lfile).visited = [] ∧
    (init url md c ofile lfile).results = [] ∧
    (init url md c ofile lfile).start_url = url ∧
    (init url md c ofile lfile).concurrency = c :=
  ⟨rfl, rfl, rfl, rfl, rfl⟩

/-- Claim C7: every address `extract_links` returns parses to scheme http
or https (hence is an absolute URL), contains no fragment marker, and is
the fragment-stripped standard resolution of one of the page's raw
references against the base address. -/
theorem C7_extract_links (cfg : Config) (html base : String) (u : String)
    (h : u ∈ extract_links cfg html base) :
    (urlparseScheme u = "http" ∨ urlparseScheme u = "https") ∧
    '#' ∉ u.toList ∧
    ∃ raw ∈ cfg.refs html, raw ≠ "" ∧ u = urldefrag (cfg.join base raw) := by
  rw [extract_links] at h
  have h1 := (mem_dedupFirst u _).mp h
  obtain ⟨hmem, hvalid⟩ := List.mem_filter.mp h1
  obtain ⟨raw, hraw, hequ⟩ := List.mem_map.mp hmem
  obtain ⟨hrawmem, hrawne⟩ := List.mem_filter.mp hraw
  refine ⟨?_, ?_, raw, hrawmem, by simpa using hrawne, hequ.symm⟩
  · have := hvalid
    rw [is_valid] at this
    rcases Bool.or_eq_true _ _ |>.mp this with h2 | h2
    · exact Or.inl (by simpa using h2)
    · exact Or.inr (by simpa using h2)
  · intro hc
    rw [← hequ] at hc
    have hc' : '#' ∈ (cfg.join base raw).toList.takeWhile
        (fun c => c ≠ '#') := hc
    have := List.mem_takeWhile_imp hc'
    simp at this

/-- Claim C7, witness: the theorem applied to the fixture seed page, whose
extraction yields http://x1/. -/
theorem C7_witness :
    "http://x1/" ∈ extract_links cfg9 "http://s/" "http://s/" ∧
    ((urlparseScheme "http://x1/" = "http" ∨ urlparseScheme "http://x1/" = "https") ∧
     '#' ∉ "http://x1/".toList ∧
     ∃ raw ∈ cfg9.refs "http://s/", raw ≠ "" ∧
       "http://x1/" = urldefrag (cfg9.join "http://s/" raw)) :=
  ⟨by decide, C7_extract_links cfg9 "http://s/" "http://s/" "http://x1/" (by decide)⟩

/-- Claim C8, counterexample: the distinct pages http://a/ and http://b/
both link to http://c/; in the completed max_depth = 1 run both pages are
processed and http://c/ is pushed twice (both at depth 2) yet processed
zero times — not exactly once. -/
theorem C8_counterexample :
    pageLinks cfg8 "http://a/" = ["http://c/"] ∧
    pageLinks cfg8 "http://b/" = ["http://c/"] ∧
    startCount (exec cfg8 1 sched8).trace "http://a/" = 1 ∧
    startCount (exec cfg8 1 sched8).trace "http://b/" = 1 ∧
    ((pushList (exec cfg8 1 sched8).trace).filter
      (fun p => p.1 = "http://c/")).length = 2 ∧
    startCount (exec cfg8 1 sched8).trace "http://c/" = 0 ∧
    (exec cfg8 1 sched8).unfinished = 0 := by decide

/-- Claim C8, amended: in a completed run, an address that was ever pushed
at an in-bound depth is processed exactly once, no matter how many distinct
pages discovered it; the duplicate discoveries are skipped silently. -/
theorem C8_amended (cfg : Config) (conc : Nat) (acts : List Act)
    (a : String) (d : Nat)
    (hq : (exec cfg conc acts).unfinished = 0)
    (hp : Event.push a d ∈ (exec cfg conc acts).trace)
    (hd : d ≤ cfg.maxDepth) :
    startCount (exec cfg conc acts).trace a = 1 := by
  have hI := exec_inv cfg conc acts
  have hc := hI.count
  have hqnil : (exec cfg conc acts).queue = [] :=
    List.length_eq_zero.mp (by omega)
  rcases hI.push_resolved a d hp hd with hv | hqmem
  · have h1 := (hI.visited_start a).mp hv
    have h2 := hI.start_once a
    omega
  · rw [hqnil] at hqmem
    cases hqmem

/-- Claim C8, amended, witness: in the completed sequential fixture run
http://p/ is pushed at depth 2 (within the bound 3) and processed exactly
once. -/
theorem C8_amended_witness :
    ((exec cfg9 1 sched1).unfinished = 0 ∧
     Event.push "http://p/" 2 ∈ (exec cfg9 1 sched1).trace ∧
     2 ≤ cfg9.maxDepth) ∧
    startCount (exec cfg9 1 sched1).trace "http://p/" = 1 :=
  ⟨⟨by decide, by decide, by decide⟩,
    C8_amended cfg9 1 sched1 "http://p/" 2 (by decide) (by decide) (by decide)⟩

/-- Claim C9, counterexample: two completed runs over the same site and
deterministic oracle, differing only in concurrency (1 worker vs 2), yield
different sets of (address, method) pairs: (http://q/, GET) is recorded by
the sequential run and absent from the two-worker run, because the
two-worker interleaving first processes http://p/ at depth 3, pushing
http://q/ at the out-of-bound depth 4. -/
theorem C9_counterexample :
    (exec cfg9 1 sched1).unfinished = 0 ∧
    (exec cfg9 2 sched2).unfinished = 0 ∧
    ("http://q/", "GET") ∈ pairsOf (exec cfg9 1 sched1) ∧
    ("http://q/", "GET") ∉ pairsOf (exec cfg9 2 sched2) := by decide

/-- Claim C9, amended: runs differing in concurrency may differ in which
addresses are processed (an address discoverable at several depths can be
processed at a deeper one, losing descendants near the depth bound); what
is schedule-independent is the per-address record: every address processed
in both completed runs has identical outcomes in both logs — one entry per
successful method, in the fixed method order. -/
theorem C9_amended (cfg : Config) (c1 c2 : Nat) (acts1 acts2 : List Act)
    (a : String)
    (h1 : (exec cfg c1 acts1).unfinished = 0)
    (h2 : (exec cfg c2 acts2).unfinished = 0)
    (hv1 : a ∈ (exec cfg c1 acts1).visited)
    (hv2 : a ∈ (exec cfg c2 acts2).visited) :
    resultsFor (exec cfg c1 acts1) a = resultsFor (exec cfg c2 acts2) a := by
  rw [quiescent_resultsFor cfg _ (exec_inv cfg c1 acts1) h1 a hv1,
    quiescent_resultsFor cfg _ (exec_inv cfg c2 acts2) h2 a hv2]

/-- Claim C9, amended, witness: http://x1/ is processed in both fixture
runs and its recorded outcomes agree. -/
theorem C9_amended_witness :
    ((exec cfg9 1 sched1).unfinished = 0 ∧
     (exec cfg9 2 sched2).unfinished = 0 ∧
     "http://x1/" ∈ (exec cfg9 1 sched1).visited ∧
     "http://x1/" ∈ (exec cfg9 2 sched2).visited) ∧
    resultsFor (exec cfg9 1 sched1) "http://x1/" =
      resultsFor (exec cfg9 2 sched2) "http://x1/" :=
  ⟨⟨by decide, by decide, by decide, by decide⟩,
    C9_amended cfg9 1 2 sched1 sched2 "http://x1/"
      (by decide) (by decide) (by decide) (by decide)⟩

/-- Claim C10: processing an item whose address is already in the Visited
Set, or whose depth exceeds max_depth, returns immediately and leaves the
entire shared state — Visited Set, Result Log and queue — unchanged. -/
theorem C10_noop (cfg : Config) (s : SState) (url : String) (depth : Nat)
    (h : url ∈ s.visited ∨ depth > cfg.maxDepth) :
    process_url cfg s url depth = s := by
  rw [process_url, if_pos h]

/-- Claim C10, witness: applied to an already-visited address. -/
theorem C10_witness :
    ("http://a/" ∈ (⟨["http://a/"], [], []⟩ : SState).visited ∨
      0 > cfgPlain.maxDepth) ∧
    process_url cfgPlain ⟨["http://a/"], [], []⟩ "http://a/" 0 =
      ⟨["http://a/"], [], []⟩ :=
  ⟨by decide, C10_noop cfgPlain ⟨["http://a/"], [], []⟩ "http://a/" 0 (by decide)⟩

end AJAXSpider
